import Mathlib

/- Shallow embedding of the optimagic visualization modules
   (src/optimagic/visualization/profile_plot.py, deviation_plot.py, backends.py)
   and verification of the specified properties.

   Modelling conventions:
   * pandas/numpy float values are modelled by `Val`: a finite rational,
     +infinity, -infinity, or NaN.  (Exact rational arithmetic stands in for
     binary floating point; the analytical pipeline only adds, divides and
     compares, and no claim depends on rounding.)
   * problem and algorithm identifiers are modelled as naturals,
   * a pandas DataFrame of benchmark observations is a list of rows,
   * a missing value (NaN produced by reindexing) is `Option.none` where the
     surrounding code treats missingness structurally (deviation_plot), and
     `Val.nan` where it flows through float arithmetic (profile_plot). -/

namespace Optimagic

/-- A float value appearing in a solution-time table: a finite rational,
+infinity (`pinf`), -infinity (`ninf`) or NaN (`nan`). -/
inductive Val where
| fin (q : ℚ)
| pinf
| ninf
| nan
deriving DecidableEq, Repr

/-- Total order used by `np.unique` when sorting an array of floats:
-inf before finite values before +inf, and NaN sorting last. -/
def Val.le : Val → Val → Bool
| .ninf, _ => true
| _, .nan => true
| .fin a, .fin b => decide (a ≤ b)
| .fin _, .pinf => true
| .pinf, .pinf => true
| _, _ => false

/-- Strict version of the `np.unique` value order. -/
def ValLt (a b : Val) : Prop := Val.le a b = true ∧ a ≠ b

/-- Collapse adjacent equal elements of a list.  Applied after sorting this
is exactly the deduplication performed by `np.unique`. -/
def dedupAdj {α : Type} [DecidableEq α] : List α → List α
| [] => []
| [a] => [a]
| a :: b :: t => if a = b then dedupAdj (b :: t) else a :: dedupAdj (b :: t)

/-- Insert an element into a sorted list, keeping it sorted. -/
def insertSorted {α : Type} (le : α → α → Bool) (a : α) : List α → List α
| [] => [a]
| b :: t => if le a b then a :: b :: t else b :: insertSorted le a t

/-- Structural insertion sort.  It models `sorted(...)` and the sorting pass
of `np.unique`: for a total antisymmetric comparison the sorted permutation
is unique, so the algorithm used by the library is immaterial. -/
def sortBy {α : Type} (le : α → α → Bool) : List α → List α
| [] => []
| a :: t => insertSorted le a (sortBy le t)

/-- Ascending rational comparison as a boolean, for `sorted(...)`. -/
def qle (a b : ℚ) : Bool := decide (a ≤ b)

/-- Python `sorted` on a list of floats (ascending). -/
def sortQ (l : List ℚ) : List ℚ := sortBy qle l

/-- Sorting step of `np.unique` on an array of float values. -/
def sortVals (l : List Val) : List Val := sortBy Val.le l

/-- np.unique: sort ascending, then collapse equal adjacent values. -/
def npUnique (l : List Val) : List Val := dedupAdj (sortVals l)

/-- The epsilon nudge 1e-10 that `_find_switch_points` adds to floating
switch points. -/
def tinyEps : ℚ := 1 / 10 ^ 10

/-- Adding the epsilon nudge to a float value: finite values are shifted,
while infinities and NaN absorb the addition (inf + 1e-10 = inf). -/
def Val.addEps : Val → Val
| .fin q => .fin (q + tinyEps)
| v => v

/-- The `np.isfinite` mask combined with value extraction: `some q` for a
finite value, `none` for the infinities and NaN. -/
def Val.finitePart : Val → Option ℚ
| .fin q => some q
| _ => none

/-- Embeds `_find_switch_points` (profile_plot.py, lines 210-228): take the
unique values of the flattened solution-time table (`np.unique` sorts
ascending), add 1e-10 to every entry when the dtype is float, then keep only
the finite entries.  `isFloatDtype` models `pd.api.types.is_float_dtype`. -/
def find_switch_points (vals : List Val) (isFloatDtype : Bool) : List ℚ :=
  let u := npUnique vals
  let nudged := if isFloatDtype then u.map Val.addEps else u
  nudged.filterMap Val.finitePart

/-- Restatement of the switch points from the words of the spec (for claim
C5): the set of unique finite values appearing in the table, each nudged by
1e-10 when the values are floating-point, sorted ascending. -/
def specSwitchPoints (vals : List Val) (isFloatDtype : Bool) : List ℚ :=
  let uniqFin := dedupAdj (sortQ (vals.filterMap Val.finitePart))
  if isFloatDtype then uniqFin.map (fun q => q + tinyEps) else uniqFin

/-- Embeds `_determine_alpha_grid` (profile_plot.py, lines 200-207).
`switch_points[-1]` on an empty array raises IndexError in numpy; this is
modelled by returning `none`. -/
def determine_alpha_grid (vals : List Val) (isFloatDtype : Bool) : Option (List ℚ) :=
  let switch_points := find_switch_points vals isFloatDtype
  switch_points.getLast?.map (fun lastPt =>
    let point_to_right := lastPt * (105 / 100)
    let extended_switch_points := switch_points ++ [point_to_right]
    let mid_points := List.zipWith (fun x y => (x + y) / 2)
      extended_switch_points extended_switch_points.tail
    sortQ (extended_switch_points ++ mid_points))

/-- One observation row of the tidy benchmark table as consumed by
`create_solution_times`: problem and algorithm identifiers plus the value of
the chosen runtime-measure column for that observation. -/
structure SRow where
  problem : ℕ
  algorithm : ℕ
  runtime : ℚ
deriving DecidableEq, Repr

/-- Sorted unique identifiers, as produced for the index and columns by
`groupby(["problem", "algorithm"]).max().unstack()` (groupby sorts keys). -/
def sortedUnique (l : List ℕ) : List ℕ :=
  dedupAdj (sortBy (fun a b => decide (a ≤ b)) l)

/-- A rectangular solution-times table: problems as the row index,
algorithms as the columns, float entries. -/
structure STTable where
  probs : List ℕ
  algs : List ℕ
  val : ℕ → ℕ → Val

/-- Flattened cell values of the table, row-major, as `solution_times.values`. -/
def STTable.values (T : STTable) : List Val :=
  T.probs.flatMap (fun p => T.algs.map (fun a => T.val p a))

/-- Maximum observed runtime of one (problem, algorithm) group:
`df.groupby(["problem", "algorithm"])[runtime_measure].max()`; `none` when the
pair has no observation (the cell is NaN after `unstack`). -/
def cellMax (df : List SRow) (p a : ℕ) : Option ℚ :=
  ((df.filter (fun r => decide (r.problem = p) && decide (r.algorithm = a))).map
    SRow.runtime).max?

/-- Embeds `create_solution_times` with `return_tidy=True`
(profile_plot.py, lines 162-197): max runtime per pair, `unstack`, cast to
float, then `.where(converged_info, other=np.inf)`: a cell keeps its value
(or its NaN, for an absent pair) where converged is True and becomes +inf
where converged is False. -/
def create_solution_times (df : List SRow) (conv : ℕ → ℕ → Bool) : STTable where
  probs := sortedUnique (df.map SRow.problem)
  algs := sortedUnique (df.map SRow.algorithm)
  val := fun p a =>
    if conv p a then
      match cellMax df p a with
      | some v => .fin v
      | none => .nan
    else .pinf

/-- The `.stack()` step of `return_tidy=False`: iterate the rows (problems)
and within each the columns (algorithms), dropping NaN cells. -/
def STTable.stackRows (T : STTable) : List (ℕ × ℕ × Val) :=
  T.probs.flatMap (fun p => T.algs.filterMap (fun a =>
    if T.val p a = .nan then none else some (p, a, T.val p a)))

/-- Embeds `create_solution_times` with `return_tidy=False`: the long
(problem, algorithm, runtime_measure) shape. -/
def create_solution_times_long (df : List SRow) (conv : ℕ → ℕ → Bool) :
    List (ℕ × ℕ × Val) :=
  (create_solution_times df conv).stackRows

/-- Pivoting the long shape back to a (problem rows, algorithm columns)
table: the value of the unique row with the given keys, NaN when absent. -/
def pivotLong (rows : List (ℕ × ℕ × Val)) (p a : ℕ) : Val :=
  match rows.find? (fun r => decide (r.1 = p) && decide (r.2.1 = a)) with
  | some r => r.2.2
  | none => .nan

/-- Pairwise minimum of float values as used by `DataFrame.min(axis=1)`:
NaN entries are skipped (NaN is the identity), otherwise the numeric order
with -inf at the bottom and +inf at the top. -/
def Val.minNF : Val → Val → Val
| .nan, w => w
| v, .nan => v
| .ninf, _ => .ninf
| _, .ninf => .ninf
| .fin a, .fin b => .fin (min a b)
| .fin a, .pinf => .fin a
| .pinf, .fin b => .fin b
| .pinf, .pinf => .pinf

/-- Row minimum across algorithms, `solution_times.min(axis=1)` (skipna). -/
def STTable.rowMin (T : STTable) (p : ℕ) : Val :=
  (T.algs.map (fun a => T.val p a)).foldl Val.minNF .nan

/-- IEEE float division lifted to `Val` (sign of a float zero is not
modelled: the single rational 0 behaves like +0.0). -/
def Val.div : Val → Val → Val
| .nan, _ => .nan
| .fin a, .fin b =>
    if b = 0 then (if a = 0 then .nan else if 0 < a then .pinf else .ninf)
    else .fin (a / b)
| .fin _, .pinf => .fin 0
| .fin _, .ninf => .fin 0
| .pinf, .fin b => if 0 ≤ b then .pinf else .ninf
| .ninf, .fin b => if 0 ≤ b then .ninf else .pinf
| .pinf, .pinf => .nan
| .pinf, .ninf => .nan
| .ninf, .pinf => .nan
| .ninf, .ninf => .nan
| _, .nan => .nan

/-- Embeds the normalization step of `profile_plot` (lines 99-101):
`solution_times.divide(solution_times.min(axis=1), axis=0)` followed by the
mask assignment `solution_times[~converged_info] = np.inf`. -/
def normalize_solution_times (T : STTable) (conv : ℕ → ℕ → Bool) : STTable where
  probs := T.probs
  algs := T.algs
  val := fun p a => if conv p a then (T.val p a).div (T.rowMin p) else .pinf

/-- Elementwise float comparison `solution_times <= alpha`: false for +inf
and for NaN (any comparison with NaN is false). -/
def Val.leQ : Val → ℚ → Bool
| .fin q, x => decide (q ≤ x)
| .pinf, _ => false
| .ninf, _ => true
| .nan, _ => false

/-- Mean of a boolean column as computed by `DataFrame.mean()` on the
concatenated indicator frames: number of True entries over the number of
rows (division by zero yields 0 for an empty problem set, which pandas
renders as NaN; no claim concerns an empty table). -/
def boolMean (l : List Bool) : ℚ := ((l.countP id : ℕ) : ℚ) / ((l.length : ℕ) : ℚ)

/-- Performance-profile value of algorithm `a` at threshold `alpha`: the
mean over the problem index of the indicator column produced by
`solution_times <= alpha`. -/
def profileValue (T : STTable) (alpha : ℚ) (a : ℕ) : ℚ :=
  boolMean (T.probs.map (fun p => (T.val p a).leQ alpha))

/-- Rows of `performance_profiles` after
`groupby("alpha").mean().stack().reset_index()`: one (alpha, algorithm,
value) row per alpha grid point and algorithm. -/
def performance_profiles (T : STTable) (alphas : List ℚ) : List (ℚ × ℕ × ℚ) :=
  alphas.flatMap (fun alpha => T.algs.map (fun a => (alpha, a, profileValue T alpha a)))

/-- Spec-side formula of claim C6: the mean, over all problems, of the
indicator that the solution time is below the threshold. -/
def specMeanIndicator (T : STTable) (alpha : ℚ) (a : ℕ) : ℚ :=
  ((T.probs.map (fun p => if (T.val p a).leQ alpha then (1 : ℚ) else 0)).sum)
    / ((T.probs.length : ℕ) : ℚ)

/-- Kinds of Python exceptions raised by the embedded code. -/
inductive PyExcKind where
| valueError
| keyError
deriving DecidableEq, Repr

/-- A Python exception: its kind together with its message.  (Quote marks
that the Python source places around identifiers inside messages are elided;
they carry no information for the claims.) -/
structure PyExc where
  kind : PyExcKind
  msg : String
deriving DecidableEq, Repr

/-- The recognized runtime measures of `profile_plot`. -/
def PROFILE_RUNTIME_MEASURES : List String := ["walltime", "n_evaluations", "n_batches"]

/-- Embeds the argument checks at the top of `profile_plot`
(profile_plot.py, lines 75-83), which run before
`process_benchmark_results` is called: a `ValueError` when
`stopping_criterion` is `None`, then a `ValueError` when `runtime_measure`
is not one of the three recognized identifiers.  Both raises use the same
exception class, and the second message lists only two of the three valid
measures. -/
def profile_plot_validation (stopping_criterion : Option String)
    (runtime_measure : String) : Except PyExc Unit :=
  if stopping_criterion = none then
    .error ⟨.valueError,
      "You must specify a stopping criterion for the performance plot. "⟩
  else if runtime_measure ∉ PROFILE_RUNTIME_MEASURES then
    .error ⟨.valueError,
      "Only walltime or n_evaluations are allowed as runtime_measure. You specified "
        ++ runtime_measure ++ "."⟩
  else .ok ()

/-- Embeds the (absent) pre-processing validation of `deviation_plot`
(deviation_plot.py, lines 51-59): the function body starts directly with
`process_benchmark_results`; no check of `runtime_measure` or of any other
argument happens before data processing, so the validation phase always
succeeds.  (An unrecognized `runtime_measure` only fails later, inside the
groupby/label lookups, with a `KeyError`.) -/
def deviation_plot_prevalidation (_runtime_measure : String) : Except PyExc Unit :=
  .ok ()

/-- Kind of the error produced by a validation run, `none` when it succeeds. -/
def errKind : Except PyExc Unit → Option PyExcKind
| .error e => some e.kind
| .ok _ => none

/-- Errors raised by the rendering layer (backends.py). -/
inductive PlotErr where
| invalidPlottingBackend (msg : String)
| notInstalled (msg : String)
deriving DecidableEq, Repr

/-- Which optional plotting libraries are importable in the current
environment (the `IS_*_INSTALLED` flags of optimagic.config); plotly is a
hard dependency and always present. -/
structure InstalledLibs where
  matplotlib : Bool
  seaborn : Bool
  bokeh : Bool
  altair : Bool
deriving DecidableEq, Repr

/-- Embeds `_line_plot_plotly`: no availability check. -/
def line_plot_plotly (_inst : InstalledLibs) : Except PlotErr Unit := .ok ()

/-- Embeds `_line_plot_matplotlib` (backends.py, lines 86-113): raises
`NotInstalledError` at render time when matplotlib is absent. -/
def line_plot_matplotlib (inst : InstalledLibs) : Except PlotErr Unit :=
  if inst.matplotlib then .ok ()
  else .error (.notInstalled "Matplotlib is not installed...")

/-- Embeds `_line_plot_seaborn` (backends.py, lines 116-144). -/
def line_plot_seaborn (inst : InstalledLibs) : Except PlotErr Unit :=
  if inst.seaborn then .ok ()
  else .error (.notInstalled "Seaborn is not installed...")

/-- Embeds `_line_plot_bokeh` (backends.py, lines 147-176). -/
def line_plot_bokeh (inst : InstalledLibs) : Except PlotErr Unit :=
  if inst.bokeh then .ok ()
  else .error (.notInstalled "Bokeh is not installed...")

/-- Embeds `_line_plot_altair` (backends.py, lines 179-213). -/
def line_plot_altair (inst : InstalledLibs) : Except PlotErr Unit :=
  if inst.altair then .ok ()
  else .error (.notInstalled "Altair is not installed...")

/-- The backend registry `BACKEND_TO_LINE_PLOT_FUNC` (backends.py, lines
216-222).  It is defined unconditionally at module level: all five names are
present regardless of which libraries are installed. -/
def BACKEND_TO_LINE_PLOT_FUNC : List (String × (InstalledLibs → Except PlotErr Unit)) :=
  [("plotly", line_plot_plotly),
   ("matplotlib", line_plot_matplotlib),
   ("seaborn", line_plot_seaborn),
   ("bokeh", line_plot_bokeh),
   ("altair", line_plot_altair)]

/-- The registry keys, in definition order. -/
def backendNames : List String := BACKEND_TO_LINE_PLOT_FUNC.map Prod.fst

/-- The message of the invalid-backend error:
`f"Invalid plotting backend '{backend}'. Available backends: {', '.join(...)}."`
(quote marks elided). -/
def invalidBackendMsg (backend : String) : String :=
  "Invalid plotting backend " ++ backend ++ ". Available backends: "
    ++ String.intercalate ", " backendNames ++ "."

/-- Embeds `line_plot` (backends.py, lines 225-250): resolve the backend
name against the registry; unresolved names raise
`InvalidPlottingBackendError`, resolved names dispatch to the backend render
function (where the not-installed check happens). -/
def line_plot (backend : String) (inst : InstalledLibs) : Except PlotErr Unit :=
  match BACKEND_TO_LINE_PLOT_FUNC.lookup backend with
  | some f => f inst
  | none => .error (.invalidPlottingBackend (invalidBackendMsg backend))

/-- One observation row of the tidy table as consumed by `deviation_plot`:
problem and algorithm identifiers, the integer runtime step
(`n_evaluations` or `n_batches`), and the selected outcome column
(the `..._normalized` distance measure). -/
structure DRow where
  problem : ℕ
  algorithm : ℕ
  runtime : ℕ
  outcome : ℚ
deriving DecidableEq, Repr

/-- Helper of `uniqueFirst`: drop values already seen. -/
def uniqueFirstAux (seen : List ℕ) : List ℕ → List ℕ
| [] => []
| a :: t => if a ∈ seen then uniqueFirstAux seen t
            else a :: uniqueFirstAux (a :: seen) t

/-- Pandas `Series.unique()`: unique values in order of first appearance. -/
def uniqueFirst (l : List ℕ) : List ℕ := uniqueFirstAux [] l

/-- The problem labels, `df["problem"].unique()`. -/
def dProbs (df : List DRow) : List ℕ := uniqueFirst (df.map DRow.problem)

/-- The algorithm labels, `df["algorithm"].unique()`. -/
def dAlgs (df : List DRow) : List ℕ := uniqueFirst (df.map DRow.algorithm)

/-- The global minimum `df[runtime_measure].min()` (a nonempty df is assumed; pandas raises on
an empty frame, and no claim involves one). -/
def dTMin (df : List DRow) : ℕ := ((df.map DRow.runtime).min?).getD 0

/-- The global maximum `df[runtime_measure].max()`. -/
def dTMax (df : List DRow) : ℕ := ((df.map DRow.runtime).max?).getD 0

/-- The list `range(df[rm].min(), df[rm].max() + 1)`: the global integer runtime
range shared by every (problem, algorithm) series. -/
def dRange (df : List DRow) : List ℕ :=
  List.range' (dTMin df) (dTMax df + 1 - dTMin df)

/-- Minimum outcome of one `(problem, algorithm, runtime)` group:
`df.groupby(["problem", "algorithm", runtime_measure]).min()[outcome]`;
`none` when the group is absent (a NaN cell after `reindex`). -/
def groupMin (df : List DRow) (p a t : ℕ) : Option ℚ :=
  ((df.filter (fun r =>
      decide (r.problem = p) && decide (r.algorithm = a) && decide (r.runtime = t))).map
    DRow.outcome).min?

/-- The index `pd.MultiIndex.from_product([problems, algorithms, range])`, flattened in
product order: problem varies slowest, runtime fastest. -/
def productIndex (df : List DRow) : List (ℕ × ℕ × ℕ) :=
  (dProbs df).flatMap (fun p =>
    (dAlgs df).flatMap (fun a =>
      (dRange df).map (fun t => (p, a, t))))

/-- The grouped series after `.reindex(...)`: one entry per product-index
key, carrying the group minimum or `none` for a key with no observation. -/
def reindexed (df : List DRow) : List ((ℕ × ℕ × ℕ) × Option ℚ) :=
  (productIndex df).map (fun k => (k, groupMin df k.1 k.2.1 k.2.2))

/-- Pandas `Series.ffill()` over the flattened column, carrying the last seen value
`acc`: pandas forward-fill is positional and ignores the MultiIndex
structure, so the carried value crosses (problem, algorithm) series
boundaries. -/
def ffillFrom {α β : Type} (acc : Option β) : List (α × Option β) → List (α × Option β)
| [] => []
| (k, some v) :: rest => (k, some v) :: ffillFrom (some v) rest
| (k, none) :: rest => (k, acc) :: ffillFrom acc rest

/-- The `deviations` frame of deviation_plot.py (lines 60-75): group minima
reindexed onto the full product index, then forward-filled flat. -/
def deviations (df : List DRow) : List ((ℕ × ℕ × ℕ) × Option ℚ) :=
  ffillFrom none (reindexed df)

/-- Pandas `Series.mean()`: NaN (here `none`) on an empty list of values, the
arithmetic mean otherwise. -/
def listMeanQ : List ℚ → Option ℚ
| [] => none
| l => some (l.sum / ((l.length : ℕ) : ℚ))

/-- The `average_deviations` value for one (algorithm, runtime) group
(deviation_plot.py, lines 76-80): `groupby(["algorithm", rm]).mean()` takes
the mean of the group's outcome values, skipping missing entries. -/
def average_deviations (df : List DRow) (a t : ℕ) : Option ℚ :=
  listMeanQ
    (((deviations df).filter (fun r =>
        decide (r.1.2.1 = a) && decide (r.1.2.2 = t))).filterMap Prod.snd)

/-- Last present value among a prefix of the raw column: the value that a
flat forward-fill leaves at the end of that prefix. -/
def lastSome {β : Type} : List (Option β) → Option β
| [] => none
| v :: t => match lastSome t with
  | some w => some w
  | none => v

/-- Step of a flat forward-fill: the new value when the carried value is
`acc` and the raw cell is `v`. -/
def fillValue {β : Type} (acc v : Option β) : Option β :=
  match v with
  | some w => some w
  | none => acc

/-- Value lookup by key with a default, the way `.loc[key]` reads a frame. -/
def lookupVal {κ β : Type} [DecidableEq κ] (L : List (κ × β)) (k : κ) (d : β) : β :=
  match L.find? (fun r => decide (r.1 = k)) with
  | some r => r.2
  | none => d

/-- Value of the deviations frame at one `(problem, algorithm, runtime)`
key (`none` when the cell is missing or the key is not in the index). -/
def ffilledAt (df : List DRow) (p a t : ℕ) : Option ℚ :=
  lookupVal (deviations df) (p, a, t) none

/-- Generic form of `STTable.stackRows`, for induction over the indexes. -/
def stackOf (probs algs : List ℕ) (v : ℕ → ℕ → Val) : List (ℕ × ℕ × Val) :=
  probs.flatMap (fun p => algs.filterMap (fun a =>
    if v p a = .nan then none else some (p, a, v p a)))

/-- Fixture for claim C1: problem 0 with algorithm 0 observed only at
runtime 1 (outcome 5), algorithm 1 observed only at runtime 2 (outcome 3). -/
def exDf : List DRow := [⟨0, 0, 1, 5⟩, ⟨0, 1, 2, 3⟩]

/-- Fixture for claims C2 and C8: one problem, two algorithms. -/
def exSDf : List SRow := [⟨0, 0, 3⟩, ⟨0, 1, 10⟩]

/-- Fixture table with two distinct finite values, for claim C4. -/
def TwoValTable : STTable where
  probs := [0]
  algs := [0, 1]
  val := fun _ a => if a = 0 then .fin 1 else .fin 2

/-- Fixture table with a single cell, for claim C6. -/
def OneCellTable : STTable where
  probs := [0]
  algs := [7]
  val := fun _ _ => .fin 1

/-- Fixture table whose single solution time is 0, for claim C7. -/
def ZeroTable : STTable where
  probs := [0]
  algs := [0]
  val := fun _ _ => .fin 0

theorem Val.le_total : ∀ a b : Val, Val.le a b || Val.le b a := by
  intro a b
  cases a <;> cases b <;> simp [Val.le]
  exact Rat.le_total ..

theorem Val.le_trans : ∀ a b c : Val, Val.le a b → Val.le b c → Val.le a c := by
  intro a b c hab hbc
  cases a <;> cases b <;> cases c <;> simp_all [Val.le]
  exact hab.trans hbc

theorem Val.le_antisymm : ∀ a b : Val, Val.le a b → Val.le b a → a = b := by
  intro a b hab hba
  cases a <;> cases b <;> simp_all [Val.le]
  exact hab.antisymm hba

theorem ValLt.trans : Transitive ValLt := by
  intro a b c hab hbc
  refine ⟨Val.le_trans _ _ _ hab.1 hbc.1, fun h => ?_⟩
  subst h
  exact hbc.2 (Val.le_antisymm _ _ hbc.1 hab.1)

theorem dedupAdj_cons_cons {α : Type} [DecidableEq α] (a b : α) (t : List α) :
    dedupAdj (a :: b :: t)
      = if a = b then dedupAdj (b :: t) else a :: dedupAdj (b :: t) := rfl

theorem mem_dedupAdj {α : Type} [DecidableEq α] (l : List α) (x : α) :
    x ∈ dedupAdj l ↔ x ∈ l := by
  induction l with
  | nil => simp [dedupAdj]
  | cons a t ih =>
    cases t with
    | nil => simp [dedupAdj]
    | cons b t2 =>
      rw [dedupAdj_cons_cons]
      by_cases hab : a = b
      · rw [if_pos hab, ih]
        subst hab
        simp [List.mem_cons]
      · rw [if_neg hab]
        simp only [List.mem_cons] at ih ⊢
        rw [ih]

theorem head?_dedupAdj {α : Type} [DecidableEq α] (a : α) (l : List α) :
    (dedupAdj (a :: l)).head? = some a := by
  induction l generalizing a with
  | nil => simp [dedupAdj]
  | cons b t ih =>
    rw [dedupAdj_cons_cons]
    by_cases hab : a = b
    · rw [if_pos hab, hab]
      exact ih b
    · rw [if_neg hab]
      simp

theorem chain_dedupAdj {α : Type} [DecidableEq α] (R : α → α → Prop)
    (l : List α) (h : l.Chain' R) :
    (dedupAdj l).Chain' (fun a b => R a b ∧ a ≠ b) := by
  induction l with
  | nil => simp [dedupAdj]
  | cons a t ih =>
    cases t with
    | nil => simp [dedupAdj]
    | cons b t2 =>
      rw [List.chain'_cons] at h
      rw [dedupAdj_cons_cons]
      by_cases hab : a = b
      · rw [if_pos hab]
        exact ih h.2
      · rw [if_neg hab, List.chain'_cons']
        refine ⟨?_, ih h.2⟩
        intro y hy
        rw [head?_dedupAdj] at hy
        cases hy
        exact ⟨h.1, hab⟩

theorem length_pos_of_two_mem {α : Type} (l : List α) (x y : α)
    (hx : x ∈ l) (hy : y ∈ l) (hxy : x ≠ y) : 2 ≤ l.length := by
  cases l with
  | nil => cases hx
  | cons a t =>
    cases t with
    | nil =>
      simp only [List.mem_singleton] at hx hy
      exact absurd (hx.trans hy.symm) hxy
    | cons b t2 => simp [Nat.succ_le_succ, Nat.le_add_left]

/-- Two strictly ascending lists with the same members are equal. -/
theorem eq_of_pairwise_lt_of_mem {α : Type} [LinearOrder α] :
    ∀ (l1 l2 : List α), l1.Pairwise (· < ·) → l2.Pairwise (· < ·) →
      (∀ x, x ∈ l1 ↔ x ∈ l2) → l1 = l2 := by
  intro l1
  induction l1 with
  | nil =>
    intro l2 _ _ hmem
    cases l2 with
    | nil => rfl
    | cons b t => exact absurd ((hmem b).2 (List.mem_cons_self b t)) (List.not_mem_nil b)
  | cons a t ih =>
    intro l2 h1 h2 hmem
    cases l2 with
    | nil => exact absurd ((hmem a).1 (List.mem_cons_self a t)) (List.not_mem_nil a)
    | cons b t2 =>
      rw [List.pairwise_cons] at h1 h2
      have hab : a = b := by
        have ha2 := (hmem a).1 (List.mem_cons_self a t)
        have hb1 := (hmem b).2 (List.mem_cons_self b t2)
        rcases List.mem_cons.1 ha2 with h | h
        · exact h
        · rcases List.mem_cons.1 hb1 with hcase | hcase
          · exact hcase.symm
          · exact absurd (lt_trans (h2.1 a h) (h1.1 b hcase)) (lt_irrefl b)
      subst hab
      have htail : ∀ x, x ∈ t ↔ x ∈ t2 := by
        intro x
        constructor
        · intro hx
          have hx2 := (hmem x).1 (List.mem_cons_of_mem a hx)
          rcases List.mem_cons.1 hx2 with h | h
          · exact absurd (h ▸ h1.1 x hx) (lt_irrefl a)
          · exact h
        · intro hx
          have hx1 := (hmem x).2 (List.mem_cons_of_mem a hx)
          rcases List.mem_cons.1 hx1 with h | h
          · exact absurd (h ▸ h2.1 x hx) (lt_irrefl a)
          · exact h
      rw [ih t2 h1.2 h2.2 htail]

theorem mem_insertSorted {α : Type} (le : α → α → Bool) (a x : α) :
    ∀ l : List α, x ∈ insertSorted le a l ↔ x = a ∨ x ∈ l := by
  intro l
  induction l with
  | nil => simp [insertSorted]
  | cons b t ih =>
    rw [insertSorted]
    by_cases h : le a b
    · rw [if_pos h]
      simp [List.mem_cons]
    · rw [if_neg h]
      simp only [List.mem_cons, ih]
      tauto

theorem length_insertSorted {α : Type} (le : α → α → Bool) (a : α) :
    ∀ l : List α, (insertSorted le a l).length = l.length + 1 := by
  intro l
  induction l with
  | nil => rfl
  | cons b t ih =>
    rw [insertSorted]
    by_cases h : le a b
    · rw [if_pos h]
      rfl
    · rw [if_neg h]
      simp [ih]

theorem mem_sortBy {α : Type} (le : α → α → Bool) (x : α) :
    ∀ l : List α, x ∈ sortBy le l ↔ x ∈ l := by
  intro l
  induction l with
  | nil => simp [sortBy]
  | cons a t ih =>
    rw [sortBy, mem_insertSorted]
    simp only [List.mem_cons, ih]

theorem length_sortBy {α : Type} (le : α → α → Bool) :
    ∀ l : List α, (sortBy le l).length = l.length := by
  intro l
  induction l with
  | nil => rfl
  | cons a t ih =>
    rw [sortBy, length_insertSorted, ih]
    rfl

theorem pairwise_insertSorted {α : Type} (le : α → α → Bool)
    (htot : ∀ a b, le a b || le b a)
    (htrans : ∀ a b c, le a b → le b c → le a c) (a : α) :
    ∀ l : List α, l.Pairwise (fun x y => le x y) →
      (insertSorted le a l).Pairwise (fun x y => le x y) := by
  intro l
  induction l with
  | nil =>
    intro _
    simp [insertSorted]
  | cons b t ih =>
    intro hp
    rw [List.pairwise_cons] at hp
    rw [insertSorted]
    by_cases h : le a b
    · rw [if_pos h, List.pairwise_cons]
      refine ⟨?_, List.pairwise_cons.2 hp⟩
      intro x hx
      rcases List.mem_cons.1 hx with rfl | hxt
      · exact h
      · exact htrans a b x h (hp.1 x hxt)
    · rw [if_neg h, List.pairwise_cons]
      have hba : le b a := by
        have := htot a b
        rw [Bool.or_eq_true] at this
        rcases this with h1 | h1
        · exact absurd h1 h
        · exact h1
      refine ⟨?_, ih hp.2⟩
      intro x hx
      rcases (mem_insertSorted le a x t).1 hx with rfl | hxt
      · exact hba
      · exact hp.1 x hxt

theorem pairwise_sortBy {α : Type} (le : α → α → Bool)
    (htot : ∀ a b, le a b || le b a)
    (htrans : ∀ a b c, le a b → le b c → le a c) :
    ∀ l : List α, (sortBy le l).Pairwise (fun x y => le x y) := by
  intro l
  induction l with
  | nil => simp [sortBy]
  | cons a t ih => exact pairwise_insertSorted le htot htrans a _ ih

theorem sortQ_pairwise (l : List ℚ) : (sortQ l).Pairwise (· ≤ ·) := by
  have h := pairwise_sortBy qle
    (fun a b => by simp [qle, le_total])
    (fun a b c hab hbc => by
      simp only [qle, decide_eq_true_eq] at hab hbc ⊢
      exact hab.trans hbc) l
  refine h.imp ?_
  intro a b hab
  simpa [qle] using hab

theorem mem_sortQ (l : List ℚ) (x : ℚ) : x ∈ sortQ l ↔ x ∈ l :=
  mem_sortBy qle x l

theorem sortVals_pairwise (l : List Val) : (sortVals l).Pairwise (fun a b => Val.le a b) :=
  pairwise_sortBy Val.le Val.le_total Val.le_trans l

theorem mem_sortVals (l : List Val) (x : Val) : x ∈ sortVals l ↔ x ∈ l :=
  mem_sortBy Val.le x l

theorem pairwise_of_chain {α : Type} {R : α → α → Prop} (tr : Transitive R) :
    ∀ l : List α, l.Chain' R → l.Pairwise R := by
  intro l
  induction l with
  | nil => intro _; exact List.Pairwise.nil
  | cons a t ih =>
    intro h
    rw [List.chain'_cons'] at h
    rcases h with ⟨hhead, htail⟩
    rw [List.pairwise_cons]
    refine ⟨?_, ih htail⟩
    intro b hb
    have hp := ih htail
    cases t with
    | nil => cases hb
    | cons c t2 =>
      have hac : R a c := hhead c rfl
      rcases List.mem_cons.1 hb with rfl | hb2
      · exact hac
      · exact tr hac ((List.pairwise_cons.1 hp).1 b hb2)

theorem npUnique_pairwise (l : List Val) : (npUnique l).Pairwise ValLt := by
  have hc : (sortVals l).Chain' (fun a b => Val.le a b) := (sortVals_pairwise l).chain'
  have hd := chain_dedupAdj (fun a b => Val.le a b) (sortVals l) hc
  exact pairwise_of_chain ValLt.trans _ hd

theorem mem_npUnique (l : List Val) (x : Val) : x ∈ npUnique l ↔ x ∈ l := by
  rw [npUnique, mem_dedupAdj, mem_sortVals]

/-- Deduplication of a sorted rational list is strictly ascending. -/
theorem dedupAdj_sortQ_pairwise (l : List ℚ) :
    (dedupAdj (sortQ l)).Pairwise (· < ·) := by
  have hc : (sortQ l).Chain' (· ≤ ·) := (sortQ_pairwise l).chain'
  have hd := chain_dedupAdj (· ≤ ·) (sortQ l) hc
  have hlt : (dedupAdj (sortQ l)).Chain' (· < ·) := by
    refine hd.imp ?_
    intro a b hab
    exact lt_of_le_of_ne hab.1 hab.2
  exact pairwise_of_chain (R := fun a b : ℚ => a < b)
    (fun _ _ _ hab hbc => lt_trans hab hbc) _ hlt

theorem finitePart_eq_some {v : Val} {q : ℚ} : v.finitePart = some q ↔ v = .fin q := by
  cases v <;> simp [Val.finitePart]

theorem finitePart_addEps (v : Val) :
    (Val.addEps v).finitePart = (v.finitePart).map (fun q => q + tinyEps) := by
  cases v <;> simp [Val.addEps, Val.finitePart]

/-- Core of claim C5: extracting the finite entries of the nudge-free
`np.unique` output coincides with sorting and deduplicating the finite
entries directly. -/
theorem npUnique_finite_comm (vals : List Val) :
    (npUnique vals).filterMap Val.finitePart
      = dedupAdj (sortQ (vals.filterMap Val.finitePart)) := by
  apply eq_of_pairwise_lt_of_mem
  · have hp := npUnique_pairwise vals
    rw [List.pairwise_filterMap]
    refine hp.imp ?_
    intro a b hab q hq r hr
    simp only [Option.mem_def, finitePart_eq_some] at hq hr
    subst hq
    subst hr
    rcases hab with ⟨hle, hne⟩
    simp only [Val.le, decide_eq_true_eq] at hle
    exact lt_of_le_of_ne hle (fun h => hne (by rw [h]))
  · exact dedupAdj_sortQ_pairwise _
  · intro q
    rw [mem_dedupAdj, mem_sortQ]
    simp only [List.mem_filterMap, finitePart_eq_some, mem_npUnique]

/-- Full form of claim C5 as a reusable helper: `_find_switch_points`
returns exactly the unique finite values, each nudged by 1e-10 when the
dtype is float, sorted ascending. -/
theorem find_switch_points_eq_spec (vals : List Val) (isF : Bool) :
    find_switch_points vals isF = specSwitchPoints vals isF := by
  cases isF with
  | false =>
    show (npUnique vals).filterMap Val.finitePart
        = dedupAdj (sortQ (vals.filterMap Val.finitePart))
    exact npUnique_finite_comm vals
  | true =>
    show ((npUnique vals).map Val.addEps).filterMap Val.finitePart
        = (dedupAdj (sortQ (vals.filterMap Val.finitePart))).map (fun q => q + tinyEps)
    rw [List.filterMap_map]
    have hcomp : (Val.finitePart ∘ Val.addEps)
        = fun v => (v.finitePart).map (fun q => q + tinyEps) := by
      funext v
      exact finitePart_addEps v
    rw [hcomp]
    rw [← List.map_filterMap]
    rw [npUnique_finite_comm]

theorem length_ffillFrom {α β : Type} (acc : Option β) (l : List (α × Option β)) :
    (ffillFrom acc l).length = l.length := by
  induction l generalizing acc with
  | nil => rfl
  | cons hd t ih =>
    rcases hd with ⟨k, v⟩
    cases v <;> simp [ffillFrom, ih]

theorem map_fst_ffillFrom {α β : Type} (acc : Option β) (l : List (α × Option β)) :
    (ffillFrom acc l).map Prod.fst = l.map Prod.fst := by
  induction l generalizing acc with
  | nil => rfl
  | cons hd t ih =>
    rcases hd with ⟨k, v⟩
    cases v <;> simp [ffillFrom, ih]

theorem fillValue_lastSome_cons {β : Type} (acc v : Option β) (s : List (Option β)) :
    fillValue acc (lastSome (v :: s)) = fillValue (fillValue acc v) (lastSome s) := by
  cases hls : lastSome s <;> cases v <;> simp [lastSome, fillValue, hls]

/-- Characterization of the flat forward-fill: the filled value at position
`i` is the last present raw value at a position at or before `i`, falling
back to the carried value `acc` when the whole prefix is missing. -/
theorem ffillFrom_getElem {α β : Type} :
    ∀ (l : List (α × Option β)) (acc : Option β) (i : ℕ) (h : i < l.length),
    (ffillFrom acc l)[i]?
      = some ((l.get ⟨i, h⟩).1,
          fillValue acc (lastSome ((l.map Prod.snd).take (i + 1)))) := by
  intro l
  induction l with
  | nil =>
    intro acc i h
    cases h
  | cons hd t ih =>
    intro acc i h
    rcases hd with ⟨k, v⟩
    cases i with
    | zero =>
      cases v <;> simp [ffillFrom, lastSome, fillValue]
    | succ j =>
      have hj : j < t.length := by simpa using h
      have hmap : ((k, v) :: t).map Prod.snd = v :: t.map Prod.snd := rfl
      rw [hmap, List.take_succ_cons, fillValue_lastSome_cons]
      cases v with
      | some w =>
        have hunf : ffillFrom acc ((k, some w) :: t)
            = (k, some w) :: ffillFrom (some w) t := rfl
        rw [hunf, List.getElem?_cons_succ, ih (some w) j hj]
        rfl
      | none =>
        have hunf : ffillFrom acc ((k, none) :: t)
            = (k, acc) :: ffillFrom acc t := rfl
        rw [hunf, List.getElem?_cons_succ, ih acc j hj]
        rfl

theorem lookupVal_cons_self {κ β : Type} [DecidableEq κ] (k : κ) (v : β)
    (L : List (κ × β)) (d : β) : lookupVal ((k, v) :: L) k d = v := by
  simp [lookupVal, List.find?_cons_of_pos]

theorem lookupVal_cons_ne {κ β : Type} [DecidableEq κ] (k0 k : κ) (v : β)
    (L : List (κ × β)) (d : β) (h : k ≠ k0) :
    lookupVal ((k0, v) :: L) k d = lookupVal L k d := by
  rw [lookupVal, lookupVal, List.find?_cons_of_neg]
  simp [Ne.symm h]

/-- A list of key-value pairs with distinct keys is recovered by looking up
each of its own keys in order. -/
theorem eq_map_lookupVal {κ β : Type} [DecidableEq κ] (d : β) :
    ∀ L : List (κ × β), (L.map Prod.fst).Nodup →
      L = (L.map Prod.fst).map (fun k => (k, lookupVal L k d)) := by
  intro L
  induction L with
  | nil => intro _; rfl
  | cons hd t ih =>
    rcases hd with ⟨k0, v0⟩
    intro hnd
    simp only [List.map_cons] at hnd ⊢
    rw [List.nodup_cons] at hnd
    congr 1
    · rw [lookupVal_cons_self]
    · have ht := ih hnd.2
      have hcong : ∀ k ∈ t.map Prod.fst,
          (fun k => (k, lookupVal ((k0, v0) :: t) k d)) k
            = (fun k => (k, lookupVal t k d)) k := by
        intro k hk
        have hne : k ≠ k0 := fun hkk => hnd.1 (hkk ▸ hk)
        simp only
        rw [lookupVal_cons_ne _ _ _ _ _ hne]
      rw [List.map_congr_left hcong, ← ht]

theorem mem_uniqueFirstAux (x : ℕ) :
    ∀ (l seen : List ℕ), x ∈ uniqueFirstAux seen l ↔ x ∈ l ∧ x ∉ seen := by
  intro l
  induction l with
  | nil => intro seen; simp [uniqueFirstAux]
  | cons a t ih =>
    intro seen
    rw [uniqueFirstAux]
    by_cases ha : a ∈ seen
    · rw [if_pos ha, ih]
      constructor
      · rintro ⟨hx, hs⟩
        exact ⟨List.mem_cons_of_mem a hx, hs⟩
      · rintro ⟨hx, hs⟩
        rcases List.mem_cons.1 hx with rfl | hxt
        · exact absurd ha hs
        · exact ⟨hxt, hs⟩
    · rw [if_neg ha, List.mem_cons, ih]
      constructor
      · rintro (rfl | ⟨hx, hs⟩)
        · exact ⟨List.mem_cons_self x t, ha⟩
        · refine ⟨List.mem_cons_of_mem a hx, fun hxs => hs (List.mem_cons_of_mem a hxs)⟩
      · rintro ⟨hx, hs⟩
        by_cases hxa : x = a
        · exact Or.inl hxa
        · rcases List.mem_cons.1 hx with h | hxt
          · exact absurd h hxa
          · refine Or.inr ⟨hxt, fun hxs => ?_⟩
            rcases List.mem_cons.1 hxs with h | hxseen
            · exact hxa h
            · exact hs hxseen

theorem nodup_uniqueFirstAux : ∀ (l seen : List ℕ), (uniqueFirstAux seen l).Nodup := by
  intro l
  induction l with
  | nil => intro seen; simp [uniqueFirstAux]
  | cons a t ih =>
    intro seen
    rw [uniqueFirstAux]
    by_cases ha : a ∈ seen
    · rw [if_pos ha]
      exact ih seen
    · rw [if_neg ha, List.nodup_cons]
      refine ⟨?_, ih (a :: seen)⟩
      intro hmem
      exact ((mem_uniqueFirstAux a t (a :: seen)).1 hmem).2 (List.mem_cons_self a seen)

theorem mem_uniqueFirst (l : List ℕ) (x : ℕ) : x ∈ uniqueFirst l ↔ x ∈ l := by
  rw [uniqueFirst, mem_uniqueFirstAux]
  simp

theorem nodup_uniqueFirst (l : List ℕ) : (uniqueFirst l).Nodup :=
  nodup_uniqueFirstAux l []

theorem nodup_dRange (df : List DRow) : (dRange df).Nodup :=
  List.nodup_range' _ _

theorem mem_productIndex (df : List DRow) (k : ℕ × ℕ × ℕ) :
    k ∈ productIndex df ↔
      k.1 ∈ dProbs df ∧ k.2.1 ∈ dAlgs df ∧ k.2.2 ∈ dRange df := by
  rcases k with ⟨p, a, t⟩
  simp only [productIndex, List.mem_flatMap, List.mem_map]
  constructor
  · rintro ⟨p2, hp2, a2, ha2, t2, ht2, hk⟩
    cases hk
    exact ⟨hp2, ha2, ht2⟩
  · rintro ⟨hp, ha, ht⟩
    exact ⟨p, hp, a, ha, t, ht, rfl⟩

theorem nodup_productIndex (df : List DRow) : (productIndex df).Nodup := by
  rw [productIndex, List.nodup_flatMap]
  constructor
  · intro p _
    rw [List.nodup_flatMap]
    constructor
    · intro a _
      exact (nodup_dRange df).map (fun t1 t2 h => by cases h; rfl)
    · have hnd := nodup_uniqueFirst (List.map DRow.algorithm df)
      refine hnd.imp ?_
      intro a1 a2 hne
      intro k hk1 hk2
      simp only [List.mem_map] at hk1 hk2
      rcases hk1 with ⟨t1, _, hk1⟩
      rcases hk2 with ⟨t2, _, hk2⟩
      rw [← hk1] at hk2
      cases hk2
      exact hne rfl
  · have hnd := nodup_uniqueFirst (List.map DRow.problem df)
    refine hnd.imp ?_
    intro p1 p2 hne
    intro k hk1 hk2
    simp only [List.mem_flatMap, List.mem_map] at hk1 hk2
    rcases hk1 with ⟨a1, _, t1, _, hk1⟩
    rcases hk2 with ⟨a2, _, t2, _, hk2⟩
    rw [← hk1] at hk2
    cases hk2
    exact hne rfl

theorem map_fst_deviations (df : List DRow) :
    (deviations df).map Prod.fst = productIndex df := by
  rw [deviations, map_fst_ffillFrom, reindexed, List.map_map]
  exact List.map_id _

theorem ffilledAt_eq_lookupVal (df : List DRow) (p a t : ℕ) :
    ffilledAt df p a t = lookupVal (deviations df) (p, a, t) none := rfl

/-- The forward-filled deviations frame is recovered key by key: its keys
are the product index and its values are given by `ffilledAt`. -/
theorem deviations_eq_map (df : List DRow) :
    deviations df
      = (productIndex df).map (fun k => (k, ffilledAt df k.1 k.2.1 k.2.2)) := by
  have hnd : ((deviations df).map Prod.fst).Nodup := by
    rw [map_fst_deviations]
    exact nodup_productIndex df
  have h := eq_map_lookupVal none (deviations df) hnd
  rw [map_fst_deviations] at h
  rw [h]
  apply List.map_congr_left
  intro k _
  rw [ffilledAt_eq_lookupVal]

theorem filter_eq_single_of_nodup (l : List ℕ) (t : ℕ)
    (hnd : l.Nodup) (ht : t ∈ l) :
    l.filter (fun x => decide (x = t)) = [t] := by
  induction l with
  | nil => cases ht
  | cons a rest ih =>
    rw [List.nodup_cons] at hnd
    rcases List.mem_cons.1 ht with rfl | htr
    · rw [List.filter_cons_of_pos (by simp)]
      have hnil : rest.filter (fun x => decide (x = t)) = [] := by
        rw [List.filter_eq_nil_iff]
        intro b hb
        simp only [decide_eq_true_eq]
        intro hbt
        exact hnd.1 (hbt ▸ hb)
      rw [hnil]
    · have hat : a ≠ t := fun h => hnd.1 (h ▸ htr)
      rw [List.filter_cons_of_neg (by simp [hat])]
      exact ih hnd.2 htr

theorem flatMap_single_eq_map {α β : Type} (l : List α) (f : α → β) :
    (l.flatMap (fun x => [f x])) = l.map f := by
  induction l with
  | nil => rfl
  | cons a t ih => simp [List.flatMap_cons, ih]

theorem filter_inner_block (p a t a2 : ℕ) (rng : List ℕ)
    (hR : rng.Nodup) (ht : t ∈ rng) :
    ((rng.map (fun t2 => (p, a2, t2))).filter
        (fun k => decide (k.2.1 = a) && decide (k.2.2 = t)))
      = if a2 = a then [(p, a, t)] else [] := by
  rw [List.filter_map]
  by_cases ha2 : a2 = a
  · subst ha2
    rw [if_pos rfl]
    have hp : ((fun k : ℕ × ℕ × ℕ => decide (k.2.1 = a2) && decide (k.2.2 = t))
        ∘ (fun t2 => (p, a2, t2))) = fun t2 => decide (t2 = t) := by
      funext t2
      simp
    rw [hp, filter_eq_single_of_nodup rng t hR ht]
    rfl
  · rw [if_neg ha2]
    have hp : (rng.filter ((fun k : ℕ × ℕ × ℕ => decide (k.2.1 = a) && decide (k.2.2 = t))
        ∘ (fun t2 => (p, a2, t2)))) = [] := by
      rw [List.filter_eq_nil_iff]
      intro b _
      simp [ha2]
    rw [hp]
    rfl

theorem flatMap_group_single {α β : Type} [DecidableEq α] (a : α) (y : β)
    (g : α → List β) :
    ∀ l : List α, l.Nodup → a ∈ l →
      (∀ x ∈ l, g x = if x = a then [y] else []) → l.flatMap g = [y] := by
  intro l
  induction l with
  | nil => intro _ ha; cases ha
  | cons a2 rest ih =>
    intro hnd ha hg
    rw [List.nodup_cons] at hnd
    rw [List.flatMap_cons]
    rcases List.mem_cons.1 ha with rfl | har
    · rw [hg a (List.mem_cons_self a rest), if_pos rfl]
      have hrest : rest.flatMap g = [] := by
        rw [List.flatMap_eq_nil_iff]
        intro x hx
        rw [hg x (List.mem_cons_of_mem a hx), if_neg]
        intro hxa
        exact hnd.1 (hxa ▸ hx)
      rw [hrest, List.append_nil]
    · have hne : a2 ≠ a := fun h => hnd.1 (h ▸ har)
      rw [hg a2 (List.mem_cons_self a2 rest), if_neg hne, List.nil_append]
      exact ih hnd.2 har (fun x hx => hg x (List.mem_cons_of_mem a2 hx))

/-- Filtering the product index down to one (algorithm, runtime) group
leaves exactly one key per problem, in problem order. -/
theorem filter_productIndex (df : List DRow) (a t : ℕ)
    (ha : a ∈ dAlgs df) (ht : t ∈ dRange df) :
    (productIndex df).filter
        (fun k => decide (k.2.1 = a) && decide (k.2.2 = t))
      = (dProbs df).map (fun p => (p, a, t)) := by
  rw [productIndex, List.filter_flatMap, ← flatMap_single_eq_map]
  apply List.flatMap_congr
  intro p _
  rw [List.filter_flatMap]
  exact flatMap_group_single a (p, a, t) _ (dAlgs df)
    (nodup_uniqueFirst _) ha
    (fun a2 _ => filter_inner_block p a t a2 (dRange df) (nodup_dRange df) ht)

theorem mem_fst_deviations (df : List DRow) (r : (ℕ × ℕ × ℕ) × Option ℚ)
    (hr : r ∈ deviations df) : r.1 ∈ productIndex df := by
  rw [← map_fst_deviations df]
  exact List.mem_map_of_mem Prod.fst hr

theorem ffilledAt_eq_none_of_not_index (df : List DRow) (p a t : ℕ)
    (h : (p, a, t) ∉ productIndex df) : ffilledAt df p a t = none := by
  rw [ffilledAt, lookupVal]
  have hf : (deviations df).find? (fun r => decide (r.1 = (p, a, t))) = none := by
    rw [List.find?_eq_none]
    intro r hr
    simp only [decide_eq_true_eq]
    intro hrk
    exact h (hrk ▸ mem_fst_deviations df r hr)
  rw [hf]

/-- The groupby mean over one (algorithm, runtime) key equals the mean of
the per-problem forward-filled values: a problem whose value at that key is
still missing contributes no term. -/
theorem average_deviations_by_problem (df : List DRow) (a t : ℕ) :
    average_deviations df a t
      = listMeanQ (((dProbs df).map (fun p => ffilledAt df p a t)).reduceOption) := by
  have hro : ∀ l : List (Option ℚ), l.reduceOption = l.filterMap id := fun _ => rfl
  by_cases hat : a ∈ dAlgs df ∧ t ∈ dRange df
  · rcases hat with ⟨ha, ht⟩
    rw [average_deviations, deviations_eq_map, List.filter_map]
    have hpred : ((fun r : (ℕ × ℕ × ℕ) × Option ℚ =>
          decide (r.1.2.1 = a) && decide (r.1.2.2 = t))
        ∘ (fun k : ℕ × ℕ × ℕ => (k, ffilledAt df k.1 k.2.1 k.2.2)))
        = fun k : ℕ × ℕ × ℕ => decide (k.2.1 = a) && decide (k.2.2 = t) := rfl
    rw [hpred, filter_productIndex df a t ha ht, List.filterMap_map,
      hro, List.filterMap_map, List.filterMap_map]
    rfl
  · have hG : ((deviations df).filter (fun r =>
        decide (r.1.2.1 = a) && decide (r.1.2.2 = t))) = [] := by
      rw [List.filter_eq_nil_iff]
      intro r hr
      have hk := mem_fst_deviations df r hr
      rw [mem_productIndex] at hk
      simp only [Bool.and_eq_true, decide_eq_true_eq, not_and]
      intro h1 h2
      exact hat ⟨h1 ▸ hk.2.1, h2 ▸ hk.2.2⟩
    have hR : ((dProbs df).map (fun p => ffilledAt df p a t)).reduceOption = [] := by
      rw [hro, List.filterMap_eq_nil_iff]
      intro v hv
      rcases List.mem_map.1 hv with ⟨p, _, hpv⟩
      rw [← hpv]
      apply ffilledAt_eq_none_of_not_index
      rw [mem_productIndex]
      intro hk
      exact hat ⟨hk.2.1, hk.2.2⟩
    rw [average_deviations, hG, hR]
    rfl

theorem stackRows_eq_stackOf (T : STTable) :
    T.stackRows = stackOf T.probs T.algs T.val := rfl

theorem mem_stackOf_key (probs algs : List ℕ) (v : ℕ → ℕ → Val)
    (x : ℕ × ℕ × Val) (hx : x ∈ stackOf probs algs v) :
    x.1 ∈ probs ∧ x.2.1 ∈ algs := by
  simp only [stackOf, List.mem_flatMap, List.mem_filterMap] at hx
  rcases hx with ⟨p, hp, a, ha, hcell⟩
  by_cases h : v p a = .nan
  · rw [if_pos h] at hcell
    cases hcell
  · rw [if_neg h] at hcell
    cases hcell
    exact ⟨hp, ha⟩

theorem find_stack_block (p a : ℕ) (v : ℕ → ℕ → Val) :
    ∀ algs : List ℕ, algs.Nodup → a ∈ algs →
      ((algs.filterMap (fun a2 =>
          if v p a2 = .nan then none else some (p, a2, v p a2))).find?
          (fun r => decide (r.1 = p) && decide (r.2.1 = a)))
        = if v p a = .nan then none else some (p, a, v p a) := by
  intro algs
  induction algs with
  | nil => intro _ ha; cases ha
  | cons a2 rest ih =>
    intro hnd ha
    rw [List.nodup_cons] at hnd
    rcases List.mem_cons.1 ha with rfl | har
    · by_cases hnan : v p a = .nan
      · rw [List.filterMap_cons_none (by rw [if_pos hnan]), if_pos hnan]
        rw [List.find?_eq_none]
        intro x hx
        rcases List.mem_filterMap.1 hx with ⟨a3, ha3, hcell⟩
        by_cases h3 : v p a3 = .nan
        · rw [if_pos h3] at hcell
          cases hcell
        · rw [if_neg h3] at hcell
          cases hcell
          simp only [Bool.and_eq_true, decide_eq_true_eq, not_and]
          intro _ hcontr
          exact hnd.1 (hcontr ▸ ha3)
      · rw [List.filterMap_cons_some (by rw [if_neg hnan]), if_neg hnan,
          List.find?_cons_of_pos _ (by simp)]
    · have hne : a2 ≠ a := fun h => hnd.1 (h ▸ har)
      by_cases hnan2 : v p a2 = .nan
      · rw [List.filterMap_cons_none (by rw [if_pos hnan2])]
        exact ih hnd.2 har
      · rw [List.filterMap_cons_some (by rw [if_neg hnan2]),
          List.find?_cons_of_neg _ (by simp [hne])]
        exact ih hnd.2 har

theorem find_stackOf (v : ℕ → ℕ → Val) (a : ℕ) (algs : List ℕ)
    (hA : algs.Nodup) (ha : a ∈ algs) :
    ∀ probs : List ℕ, probs.Nodup → ∀ p ∈ probs,
      ((stackOf probs algs v).find?
          (fun r => decide (r.1 = p) && decide (r.2.1 = a)))
        = if v p a = .nan then none else some (p, a, v p a) := by
  intro probs
  induction probs with
  | nil => intro _ p hp; cases hp
  | cons p0 rest ih =>
    intro hnd p hp
    rw [List.nodup_cons] at hnd
    have hsplit : stackOf (p0 :: rest) algs v
        = (algs.filterMap (fun a2 =>
            if v p0 a2 = .nan then none else some (p0, a2, v p0 a2)))
          ++ stackOf rest algs v := by
      rw [stackOf, List.flatMap_cons]
      rfl
    rw [hsplit, List.find?_append]
    rcases List.mem_cons.1 hp with rfl | hpr
    · rw [find_stack_block p a v algs hA ha]
      by_cases hnan : v p a = .nan
      · rw [if_pos hnan, Option.none_or, List.find?_eq_none]
        intro x hx
        have hkey := (mem_stackOf_key rest algs v x hx).1
        simp only [Bool.and_eq_true, decide_eq_true_eq, not_and]
        intro hxp _
        exact hnd.1 (hxp ▸ hkey)
      · rw [if_neg hnan, Option.or_some]
    · have hblock : ((algs.filterMap (fun a2 =>
          if v p0 a2 = .nan then none else some (p0, a2, v p0 a2))).find?
          (fun r => decide (r.1 = p) && decide (r.2.1 = a))) = none := by
        rw [List.find?_eq_none]
        intro x hx
        rcases List.mem_filterMap.1 hx with ⟨a3, _, hcell⟩
        by_cases h3 : v p0 a3 = .nan
        · rw [if_pos h3] at hcell
          cases hcell
        · rw [if_neg h3] at hcell
          cases hcell
          simp only [Bool.and_eq_true, decide_eq_true_eq, not_and]
          intro hxp
          exact absurd (hxp ▸ hpr) hnd.1
      rw [hblock, Option.none_or]
      exact ih hnd.2 p hpr

/-- Pivoting the stacked long table recovers every cell of a tidy table with
distinct index labels. -/
theorem pivot_stackRows (T : STTable) (hP : T.probs.Nodup) (hA : T.algs.Nodup)
    (p a : ℕ) (hp : p ∈ T.probs) (ha : a ∈ T.algs) :
    pivotLong T.stackRows p a = T.val p a := by
  rw [pivotLong, stackRows_eq_stackOf,
    find_stackOf T.val a T.algs hA ha T.probs hP p hp]
  by_cases hnan : T.val p a = .nan
  · rw [if_pos hnan, hnan]
  · rw [if_neg hnan]

theorem nodup_sortedUnique (l : List ℕ) : (sortedUnique l).Nodup := by
  have hp := pairwise_sortBy (fun a b : ℕ => decide (a ≤ b))
    (fun a b => by simp [Nat.le_total])
    (fun a b c hab hbc => by
      simp only [decide_eq_true_eq] at hab hbc ⊢
      exact hab.trans hbc) l
  have hle : (sortBy (fun a b : ℕ => decide (a ≤ b)) l).Pairwise (· ≤ ·) := by
    refine hp.imp ?_
    intro a b hab
    simpa using hab
  have hd := chain_dedupAdj (· ≤ ·) _ hle.chain'
  have hlt : (sortedUnique l).Pairwise (· < ·) := by
    refine pairwise_of_chain (R := fun a b : ℕ => a < b)
      (fun _ _ _ hab hbc => lt_trans hab hbc) _ ?_
    refine hd.imp ?_
    intro a b hab
    exact lt_of_le_of_ne hab.1 hab.2
  exact hlt.imp (fun hab => Nat.ne_of_lt hab)

theorem mem_sortedUnique (l : List ℕ) (x : ℕ) : x ∈ sortedUnique l ↔ x ∈ l := by
  rw [sortedUnique, mem_dedupAdj]
  exact mem_sortBy _ x l

theorem countP_map_eq_sum {α : Type} (f : α → Bool) :
    ∀ l : List α,
      (l.map (fun x => if f x then (1 : ℚ) else 0)).sum
        = (((l.map f).countP id : ℕ) : ℚ) := by
  intro l
  induction l with
  | nil => simp
  | cons x t ih =>
    simp only [List.map_cons, List.sum_cons, List.countP_cons, ih]
    by_cases hx : f x
    · simp [hx]
      ring
    · simp [hx]

theorem profileValue_eq_specMean (T : STTable) (alpha : ℚ) (a : ℕ) :
    profileValue T alpha a = specMeanIndicator T alpha a := by
  rw [profileValue, boolMean, specMeanIndicator, countP_map_eq_sum]
  simp [List.length_map]

theorem leQ_mono (v : Val) {x y : ℚ} (h : x ≤ y) (hv : v.leQ x = true) :
    v.leQ y = true := by
  cases v with
  | fin q =>
    simp only [Val.leQ, decide_eq_true_eq] at hv ⊢
    exact hv.trans h
  | pinf => exact absurd hv (by simp [Val.leQ])
  | ninf => rfl
  | nan => exact absurd hv (by simp [Val.leQ])

theorem profileValue_mono (T : STTable) (a : ℕ) {x y : ℚ} (h : x ≤ y) :
    profileValue T x a ≤ profileValue T y a := by
  rw [profileValue, profileValue, boolMean, boolMean]
  simp only [List.length_map]
  have hcount : ((T.probs.map (fun p => (T.val p a).leQ x)).countP id)
      ≤ ((T.probs.map (fun p => (T.val p a).leQ y)).countP id) := by
    rw [List.countP_map, List.countP_map]
    apply List.countP_mono_left
    intro p _ hp
    exact leQ_mono (T.val p a) h hp
  rcases Nat.eq_zero_or_pos T.probs.length with hz | hpos
  · rw [hz]
    simp
  · have hd : (0 : ℚ) < ((T.probs.length : ℕ) : ℚ) := by
      exact_mod_cast hpos
    rw [div_le_div_iff_of_pos_right hd]
    exact_mod_cast hcount

theorem profileValue_nonneg (T : STTable) (x : ℚ) (a : ℕ) :
    0 ≤ profileValue T x a := by
  rw [profileValue, boolMean]
  apply div_nonneg
  · exact_mod_cast Nat.zero_le _
  · exact_mod_cast Nat.zero_le _

theorem profileValue_le_one (T : STTable) (x : ℚ) (a : ℕ) :
    profileValue T x a ≤ 1 := by
  rw [profileValue, boolMean]
  simp only [List.length_map]
  rcases Nat.eq_zero_or_pos T.probs.length with hz | hpos
  · rw [hz]
    simp
  · have hd : (0 : ℚ) < ((T.probs.length : ℕ) : ℚ) := by exact_mod_cast hpos
    rw [div_le_one hd]
    have hle := List.countP_le_length (l := T.probs.map (fun p => (T.val p a).leQ x)) id
    rw [List.length_map] at hle
    exact_mod_cast hle

theorem mem_find_switch_points_of (vals : List Val) (isF : Bool) (q : ℚ)
    (h : Val.fin q ∈ vals) :
    (if isF then q + tinyEps else q) ∈ find_switch_points vals isF := by
  rw [find_switch_points_eq_spec]
  cases isF with
  | false =>
    show q ∈ dedupAdj (sortQ (vals.filterMap Val.finitePart))
    rw [mem_dedupAdj, mem_sortQ]
    exact List.mem_filterMap.2 ⟨Val.fin q, h, rfl⟩
  | true =>
    show q + tinyEps
        ∈ (dedupAdj (sortQ (vals.filterMap Val.finitePart))).map (fun r => r + tinyEps)
    refine List.mem_map.2 ⟨q, ?_, rfl⟩
    rw [mem_dedupAdj, mem_sortQ]
    exact List.mem_filterMap.2 ⟨Val.fin q, h, rfl⟩

theorem grid_isSome_of_mem_vals (vals : List Val) (isF : Bool) (q : ℚ)
    (h : Val.fin q ∈ vals) :
    (determine_alpha_grid vals isF).isSome = true := by
  have hne : find_switch_points vals isF ≠ [] :=
    List.ne_nil_of_mem (mem_find_switch_points_of vals isF q h)
  obtain ⟨lastPt, hlast⟩ : ∃ y, (find_switch_points vals isF).getLast? = some y :=
    Option.isSome_iff_exists.1 (List.getLast?_isSome.2 hne)
  rw [determine_alpha_grid, hlast]
  rfl

theorem mem_grid_of_mem_switch (vals : List Val) (isF : Bool) (x : ℚ) (l : List ℚ)
    (hx : x ∈ find_switch_points vals isF)
    (hl : determine_alpha_grid vals isF = some l) : x ∈ l := by
  rw [determine_alpha_grid] at hl
  cases hlast : (find_switch_points vals isF).getLast? with
  | none =>
    rw [hlast] at hl
    cases hl
  | some lastPt =>
    rw [hlast] at hl
    have hl2 := Option.some.inj hl
    rw [← hl2, mem_sortQ]
    apply List.mem_append_left
    exact List.mem_append_left _ hx

theorem two_le_switch_points_length (vals : List Val) (isF : Bool) (q1 q2 : ℚ)
    (h1 : Val.fin q1 ∈ vals) (h2 : Val.fin q2 ∈ vals) (hne : q1 ≠ q2) :
    2 ≤ (find_switch_points vals isF).length := by
  apply length_pos_of_two_mem _ (if isF then q1 + tinyEps else q1)
    (if isF then q2 + tinyEps else q2)
    (mem_find_switch_points_of vals isF q1 h1)
    (mem_find_switch_points_of vals isF q2 h2)
  cases isF with
  | false => exact hne
  | true =>
    intro h
    simp at h
    exact hne h

theorem invalidBackendMsg_decomp (b : String) :
    invalidBackendMsg b
      = ("Invalid plotting backend " ++ b)
        ++ ". Available backends: plotly, matplotlib, seaborn, bokeh, altair." := by
  rw [invalidBackendMsg, String.append_assoc, String.append_assoc]
  rfl

theorem zeroTable_grid_isSome :
    (determine_alpha_grid ZeroTable.values false).isSome = true :=
  grid_isSome_of_mem_vals _ false 0 (by decide)

/-- C1 (counterexample): in `deviation_plot`, with algorithm 0 observed only
at runtime 1 and algorithm 1 observed only at runtime 2, the (0, 1) series
has no observation at runtime 1, yet the flat `.ffill()` hands it algorithm
0's value 5 from the preceding series in the flattened index, and that value
contributes a term to the mean for algorithm 1 at runtime 1 — contradicting
the claim that values before a series' first observation remain missing and
contribute no term. -/
theorem claim_C1_counterexample :
    groupMin exDf 0 1 1 = none
    ∧ ffilledAt exDf 0 1 1 = some 5
    ∧ groupMin exDf 0 0 1 = some 5
    ∧ average_deviations exDf 1 1 = some 5 := by
  refine ⟨by decide, by decide, by decide, ?_⟩
  have h1 : ((deviations exDf).filter (fun r =>
      decide (r.1.2.1 = 1) && decide (r.1.2.2 = 1))).filterMap Prod.snd
      = [(5 : ℚ)] := by decide
  rw [average_deviations, h1]
  show some (List.sum [(5 : ℚ)] / _) = some 5
  norm_num

/-- C1 (amended): in the deviation aggregation of `deviation_plot`, after
reindexing onto the global runtime range the forward-fill is applied to the
single flattened column over the whole (problem, algorithm, runtime) product
index: the value at position i is the last observed group value at or before
i in the flattened order, so a step before a series' first observation
inherits the preceding series' last value and remains missing only when no
observation occurs anywhere earlier in the column; a (problem, algorithm)
pair whose value at a runtime step is still missing after this fill
contributes no term to the mean over problems at that step. -/
theorem claim_C1_flat_ffill (df : List DRow) (i a t : ℕ)
    (h : i < (reindexed df).length) :
    (deviations df)[i]?
      = some (((reindexed df).get ⟨i, h⟩).1,
          fillValue none (lastSome (((reindexed df).map Prod.snd).take (i + 1))))
    ∧ average_deviations df a t
      = listMeanQ (((dProbs df).map (fun p => ffilledAt df p a t)).reduceOption) :=
  ⟨ffillFrom_getElem (reindexed df) none i h, average_deviations_by_problem df a t⟩

theorem claim_C1_flat_ffill_witness :
    2 < (reindexed exDf).length
    ∧ ((deviations exDf)[2]?
        = some (((reindexed exDf).get ⟨2, by decide⟩).1,
            fillValue none (lastSome (((reindexed exDf).map Prod.snd).take 3)))
      ∧ average_deviations exDf 1 1
        = listMeanQ (((dProbs exDf).map (fun p => ffilledAt exDf p 1 1)).reduceOption)) :=
  ⟨by decide, claim_C1_flat_ffill exDf 2 1 1 (by decide)⟩

/-- C2: every (problem, algorithm) pair marked not-converged has solution
time +inf, both in the output of `create_solution_times` and after the
`normalize_runtime` division, whose mask assignment forces the value back to
+inf regardless of the division result. -/
theorem claim_C2_nonconverged_inf (df : List SRow) (conv : ℕ → ℕ → Bool)
    (p a : ℕ) (h : conv p a = false) :
    (create_solution_times df conv).val p a = Val.pinf
    ∧ (normalize_solution_times (create_solution_times df conv) conv).val p a
        = Val.pinf := by
  constructor
  · simp [create_solution_times, h]
  · simp [normalize_solution_times, h]

theorem claim_C2_witness :
    (fun _ _ : ℕ => false) 0 1 = false
    ∧ ((create_solution_times exSDf (fun _ _ => false)).val 0 1 = Val.pinf
      ∧ (normalize_solution_times (create_solution_times exSDf (fun _ _ => false))
          (fun _ _ => false)).val 0 1 = Val.pinf) :=
  ⟨rfl, claim_C2_nonconverged_inf exSDf (fun _ _ => false) 0 1 rfl⟩

/-- C3 (counterexample): the two validation failures of `profile_plot` raise
the same exception kind (both `ValueError`), not distinct kinds, and
`deviation_plot` raises no configuration error at all before data
processing — its validation phase accepts any runtime_measure. -/
theorem claim_C3_counterexample :
    errKind (profile_plot_validation none "n_evaluations")
        = errKind (profile_plot_validation (some "y") "bogus_measure")
    ∧ errKind (profile_plot_validation none "n_evaluations")
        = some PyExcKind.valueError
    ∧ deviation_plot_prevalidation "bogus_measure" = Except.ok () :=
  ⟨by decide, by decide, rfl⟩

/-- C3 (amended): `profile_plot` checks its arguments before any data
processing and raises ValueError — the same exception kind for both causes —
when `stopping_criterion` is unset (with a fixed message naming neither the
offending value nor the alternatives) and when `runtime_measure` is not
recognized (with a message naming the offending value, though its list of
alternatives omits n_batches); `deviation_plot` performs no such validation
before data processing. -/
theorem claim_C3_validation (s : String) (rm : String)
    (hrm : rm ∉ PROFILE_RUNTIME_MEASURES) :
    profile_plot_validation none rm
        = Except.error ⟨PyExcKind.valueError,
            "You must specify a stopping criterion for the performance plot. "⟩
    ∧ profile_plot_validation (some s) rm
        = Except.error ⟨PyExcKind.valueError,
            "Only walltime or n_evaluations are allowed as runtime_measure. You specified "
              ++ rm ++ "."⟩
    ∧ ∀ rm2 : String, deviation_plot_prevalidation rm2 = Except.ok () := by
  refine ⟨rfl, ?_, fun _ => rfl⟩
  rw [profile_plot_validation, if_neg (by simp), if_pos hrm]

theorem claim_C3_validation_witness :
    profile_plot_validation (some "y") "bogus_measure"
      = Except.error ⟨PyExcKind.valueError,
          "Only walltime or n_evaluations are allowed as runtime_measure. You specified bogus_measure."⟩ := by
  rw [(claim_C3_validation "y" "bogus_measure" (by decide)).2.1]
  rfl

/-- C4: for a solution-time table with at least two distinct finite values,
the alpha grid exists and has odd length at least 3 (switch points, one
extension point 5% beyond the last, and the midpoints between consecutive
extended points), and is strictly ascending after deduplication. -/
theorem claim_C4_alpha_grid (T : STTable) (isF : Bool) (q1 q2 : ℚ)
    (h1 : Val.fin q1 ∈ T.values) (h2 : Val.fin q2 ∈ T.values) (hne : q1 ≠ q2) :
    ∃ l, determine_alpha_grid T.values isF = some l
      ∧ Odd l.length ∧ 3 ≤ l.length
      ∧ (dedupAdj l).Pairwise (· < ·) := by
  have hlen2 := two_le_switch_points_length T.values isF q1 q2 h1 h2 hne
  have hne_nil : find_switch_points T.values isF ≠ [] := by
    intro hn
    rw [hn] at hlen2
    simp at hlen2
  obtain ⟨lastPt, hlast⟩ :
      ∃ y, (find_switch_points T.values isF).getLast? = some y :=
    Option.isSome_iff_exists.1 (List.getLast?_isSome.2 hne_nil)
  refine ⟨sortQ ((find_switch_points T.values isF ++ [lastPt * (105 / 100)])
      ++ List.zipWith (fun x y => (x + y) / 2)
        (find_switch_points T.values isF ++ [lastPt * (105 / 100)])
        (find_switch_points T.values isF ++ [lastPt * (105 / 100)]).tail),
    ?_, ?_, ?_, ?_⟩
  · rw [determine_alpha_grid, hlast]
    rfl
  · rw [sortQ, length_sortBy, List.length_append, List.length_append,
      List.length_zipWith, List.length_tail, List.length_append]
    simp only [List.length_singleton]
    exact ⟨(find_switch_points T.values isF).length, by omega⟩
  · rw [sortQ, length_sortBy, List.length_append, List.length_append,
      List.length_zipWith, List.length_tail, List.length_append]
    simp only [List.length_singleton]
    omega
  · exact dedupAdj_sortQ_pairwise _

theorem claim_C4_alpha_grid_witness :
    Val.fin 1 ∈ TwoValTable.values ∧ Val.fin 2 ∈ TwoValTable.values
    ∧ (1 : ℚ) ≠ 2
    ∧ ∃ l, determine_alpha_grid TwoValTable.values true = some l
        ∧ Odd l.length ∧ 3 ≤ l.length
        ∧ (dedupAdj l).Pairwise (· < ·) :=
  ⟨by decide, by decide, by decide,
    claim_C4_alpha_grid TwoValTable true 1 2 (by decide) (by decide) (by decide)⟩

/-- C5: `_find_switch_points` returns exactly the unique finite values of
the table, each nudged by 1e-10 when the dtype is float, sorted (strictly)
ascending.  The first conjunct is the refinement against the definition
written from the spec's words; the second states the ascending order. -/
theorem claim_C5_switch_points (T : STTable) (isF : Bool) :
    find_switch_points T.values isF = specSwitchPoints T.values isF
    ∧ (find_switch_points T.values isF).Pairwise (· < ·) := by
  refine ⟨find_switch_points_eq_spec T.values isF, ?_⟩
  rw [find_switch_points_eq_spec]
  cases isF with
  | false => exact dedupAdj_sortQ_pairwise _
  | true =>
    show ((dedupAdj (sortQ (T.values.filterMap Val.finitePart))).map
        (fun q => q + tinyEps)).Pairwise (· < ·)
    rw [List.pairwise_map]
    refine (dedupAdj_sortQ_pairwise _).imp ?_
    intro a b hab
    exact add_lt_add_right hab tinyEps

/-- C6: every row of the `performance_profiles` frame carries, as its value,
the mean over all problems of the indicator that the (possibly normalized)
solution time of that algorithm on that problem is at most alpha. -/
theorem claim_C6_profile_mean (T : STTable) (alphas : List ℚ) (alpha : ℚ)
    (a : ℕ) (y : ℚ)
    (hmem : (alpha, a, y) ∈ performance_profiles T alphas) :
    y = specMeanIndicator T alpha a := by
  simp only [performance_profiles, List.mem_flatMap, List.mem_map] at hmem
  rcases hmem with ⟨α2, hα2, a2, ha2, heq⟩
  cases heq
  exact profileValue_eq_specMean T alpha a

theorem claim_C6_profile_mean_witness :
    ((2 : ℚ), 7, profileValue OneCellTable 2 7)
        ∈ performance_profiles OneCellTable [2]
    ∧ profileValue OneCellTable 2 7 = specMeanIndicator OneCellTable 2 7 := by
  have hmem : ((2 : ℚ), 7, profileValue OneCellTable 2 7)
      ∈ performance_profiles OneCellTable [2] := by
    show ((2 : ℚ), 7, profileValue OneCellTable 2 7)
        ∈ [((2 : ℚ), 7, profileValue OneCellTable 2 7)]
    exact List.mem_singleton.2 rfl
  exact ⟨hmem, claim_C6_profile_mean OneCellTable [2] 2 7 _ hmem⟩

/-- C7: along the ascending alpha grid the performance-profile value of each
algorithm is non-decreasing in alpha and always lies in [0, 1]. -/
theorem claim_C7_profile_monotone_bounded (T : STTable) (isF : Bool)
    (grid : List ℚ) (a : ℕ) (x y : ℚ)
    (hg : determine_alpha_grid T.values isF = some grid)
    (h1 : x ∈ grid) (h2 : y ∈ grid) (hle : x ≤ y) :
    profileValue T x a ≤ profileValue T y a
    ∧ 0 ≤ profileValue T x a ∧ profileValue T x a ≤ 1 :=
  ⟨profileValue_mono T a hle, profileValue_nonneg T x a, profileValue_le_one T x a⟩

theorem claim_C7_witness :
    determine_alpha_grid ZeroTable.values false
        = some ((determine_alpha_grid ZeroTable.values false).get zeroTable_grid_isSome)
    ∧ (0 : ℚ) ∈ (determine_alpha_grid ZeroTable.values false).get zeroTable_grid_isSome
    ∧ (0 : ℚ) ≤ 0
    ∧ (profileValue ZeroTable 0 0 ≤ profileValue ZeroTable 0 0
      ∧ 0 ≤ profileValue ZeroTable 0 0 ∧ profileValue ZeroTable 0 0 ≤ 1) := by
  have hg : determine_alpha_grid ZeroTable.values false
      = some ((determine_alpha_grid ZeroTable.values false).get zeroTable_grid_isSome) :=
    (Option.some_get zeroTable_grid_isSome).symm
  have hmem : (0 : ℚ)
      ∈ (determine_alpha_grid ZeroTable.values false).get zeroTable_grid_isSome := by
    refine mem_grid_of_mem_switch ZeroTable.values false 0 _ ?_ hg
    exact mem_find_switch_points_of ZeroTable.values false 0 (by decide)
  exact ⟨hg, hmem, le_refl 0,
    claim_C7_profile_monotone_bounded ZeroTable false _ 0 0 0 hg hmem hmem (le_refl 0)⟩

/-- C8: producing the long shape with `return_tidy=False` and pivoting it
back onto (problem rows, algorithm columns) reproduces exactly the tidy
table of `return_tidy=True` on the same inputs. -/
theorem claim_C8_round_trip (df : List SRow) (conv : ℕ → ℕ → Bool) (p a : ℕ)
    (hp : p ∈ (create_solution_times df conv).probs)
    (ha : a ∈ (create_solution_times df conv).algs) :
    pivotLong (create_solution_times_long df conv) p a
      = (create_solution_times df conv).val p a :=
  pivot_stackRows (create_solution_times df conv)
    (nodup_sortedUnique _) (nodup_sortedUnique _) p a hp ha

theorem claim_C8_round_trip_witness :
    0 ∈ (create_solution_times exSDf (fun _ a => decide (a = 0))).probs
    ∧ 1 ∈ (create_solution_times exSDf (fun _ a => decide (a = 0))).algs
    ∧ pivotLong (create_solution_times_long exSDf (fun _ a => decide (a = 0))) 0 1
        = (create_solution_times exSDf (fun _ a => decide (a = 0))).val 0 1 :=
  ⟨by decide, by decide,
    claim_C8_round_trip exSDf (fun _ a => decide (a = 0)) 0 1 (by decide) (by decide)⟩

/-- C9: an unrecognized backend string makes `line_plot` raise the
invalid-backend error whose message mentions all five registry names; every
recognized backend with an optional library (matplotlib, seaborn, bokeh,
altair) resolves through the registry (which always lists all five names)
and, when its library is absent, fails with the distinct not-installed
error raised inside that backend's render function. -/
theorem claim_C9_backend_errors (b : String) (inst : InstalledLibs)
    (hb : b ∉ backendNames) :
    (line_plot b inst
        = Except.error (PlotErr.invalidPlottingBackend (invalidBackendMsg b))
      ∧ ∀ n ∈ backendNames, ∃ s t, invalidBackendMsg b = s ++ n ++ t)
    ∧ (line_plot "matplotlib" inst = line_plot_matplotlib inst
      ∧ (inst.matplotlib = false →
          line_plot_matplotlib inst
            = Except.error (PlotErr.notInstalled "Matplotlib is not installed...")))
    ∧ (line_plot "seaborn" inst = line_plot_seaborn inst
      ∧ (inst.seaborn = false →
          line_plot_seaborn inst
            = Except.error (PlotErr.notInstalled "Seaborn is not installed...")))
    ∧ (line_plot "bokeh" inst = line_plot_bokeh inst
      ∧ (inst.bokeh = false →
          line_plot_bokeh inst
            = Except.error (PlotErr.notInstalled "Bokeh is not installed...")))
    ∧ (line_plot "altair" inst = line_plot_altair inst
      ∧ (inst.altair = false →
          line_plot_altair inst
            = Except.error (PlotErr.notInstalled "Altair is not installed...")))
    ∧ backendNames = ["plotly", "matplotlib", "seaborn", "bokeh", "altair"]
    ∧ ∀ m1 m2 : String,
        PlotErr.invalidPlottingBackend m1 ≠ PlotErr.notInstalled m2 := by
  have hb5 : b ≠ "plotly" ∧ b ≠ "matplotlib" ∧ b ≠ "seaborn" ∧ b ≠ "bokeh"
      ∧ b ≠ "altair" := by
    simp only [backendNames, BACKEND_TO_LINE_PLOT_FUNC, List.map_cons,
      List.map_nil, List.mem_cons, List.not_mem_nil, or_false] at hb
    tauto
  refine ⟨⟨?_, ?_⟩, ⟨rfl, ?_⟩, ⟨rfl, ?_⟩, ⟨rfl, ?_⟩, ⟨rfl, ?_⟩, rfl, ?_⟩
  · rw [line_plot]
    have hlook : BACKEND_TO_LINE_PLOT_FUNC.lookup b = none := by
      have e1 : (b == "plotly") = false := beq_false_of_ne hb5.1
      have e2 : (b == "matplotlib") = false := beq_false_of_ne hb5.2.1
      have e3 : (b == "seaborn") = false := beq_false_of_ne hb5.2.2.1
      have e4 : (b == "bokeh") = false := beq_false_of_ne hb5.2.2.2.1
      have e5 : (b == "altair") = false := beq_false_of_ne hb5.2.2.2.2
      simp [BACKEND_TO_LINE_PLOT_FUNC, List.lookup, e1, e2, e3, e4, e5]
    rw [hlook]
  · intro n hn
    simp only [backendNames, BACKEND_TO_LINE_PLOT_FUNC, List.map_cons,
      List.map_nil, List.mem_cons, List.not_mem_nil, or_false] at hn
    rcases hn with rfl | rfl | rfl | rfl | rfl
    · refine ⟨"Invalid plotting backend " ++ b ++ ". Available backends: ",
        ", matplotlib, seaborn, bokeh, altair.", ?_⟩
      rw [invalidBackendMsg_decomp]
      simp only [String.append_assoc]
      rfl
    · refine ⟨"Invalid plotting backend " ++ b ++ ". Available backends: plotly, ",
        ", seaborn, bokeh, altair.", ?_⟩
      rw [invalidBackendMsg_decomp]
      simp only [String.append_assoc]
      rfl
    · refine ⟨"Invalid plotting backend " ++ b
          ++ ". Available backends: plotly, matplotlib, ",
        ", bokeh, altair.", ?_⟩
      rw [invalidBackendMsg_decomp]
      simp only [String.append_assoc]
      rfl
    · refine ⟨"Invalid plotting backend " ++ b
          ++ ". Available backends: plotly, matplotlib, seaborn, ",
        ", altair.", ?_⟩
      rw [invalidBackendMsg_decomp]
      simp only [String.append_assoc]
      rfl
    · refine ⟨"Invalid plotting backend " ++ b
          ++ ". Available backends: plotly, matplotlib, seaborn, bokeh, ",
        ".", ?_⟩
      rw [invalidBackendMsg_decomp]
      simp only [String.append_assoc]
      rfl
  · intro hmp
    rw [line_plot_matplotlib, hmp]
    rfl
  · intro hsb
    rw [line_plot_seaborn, hsb]
    rfl
  · intro hbo
    rw [line_plot_bokeh, hbo]
    rfl
  · intro hal
    rw [line_plot_altair, hal]
    rfl
  · intro m1 m2 h
    cases h

theorem claim_C9_backend_errors_witness :
    line_plot "unsupported_lib" ⟨false, false, false, false⟩
        = Except.error
            (PlotErr.invalidPlottingBackend (invalidBackendMsg "unsupported_lib"))
    ∧ line_plot "matplotlib" ⟨false, false, false, false⟩
        = Except.error (PlotErr.notInstalled "Matplotlib is not installed...")
    ∧ line_plot "seaborn" ⟨false, false, false, false⟩
        = Except.error (PlotErr.notInstalled "Seaborn is not installed...")
    ∧ line_plot "bokeh" ⟨false, false, false, false⟩
        = Except.error (PlotErr.notInstalled "Bokeh is not installed...")
    ∧ line_plot "altair" ⟨false, false, false, false⟩
        = Except.error (PlotErr.notInstalled "Altair is not installed...") := by
  have h := claim_C9_backend_errors "unsupported_lib" ⟨false, false, false, false⟩
    (by decide)
  refine ⟨h.1.1, ?_, ?_, ?_, ?_⟩
  · rw [h.2.1.1, h.2.1.2 rfl]
  · rw [h.2.2.1.1, h.2.2.1.2 rfl]
  · rw [h.2.2.2.1.1, h.2.2.2.1.2 rfl]
  · rw [h.2.2.2.2.1.1, h.2.2.2.2.1.2 rfl]

/-- C10: when converged_info marks every pair as not-converged, every cell
of the solution-times table is +inf, `_find_switch_points` returns the empty
array, and `_determine_alpha_grid` fails on `switch_points[-1]` (modelled as
`none`) instead of producing a grid; conversely one finite value — one
converged pair — suffices for the alpha-grid computation to succeed. -/
theorem claim_C10_all_nonconverged :
    (∀ (df : List SRow) (isF : Bool),
        find_switch_points (create_solution_times df (fun _ _ => false)).values isF = []
        ∧ determine_alpha_grid
            (create_solution_times df (fun _ _ => false)).values isF = none)
    ∧ ∀ (vals : List Val) (isF : Bool) (q : ℚ), Val.fin q ∈ vals →
        (determine_alpha_grid vals isF).isSome = true := by
  constructor
  · intro df isF
    have hfm : (create_solution_times df (fun _ _ => false)).values.filterMap
        Val.finitePart = [] := by
      rw [List.filterMap_eq_nil_iff]
      intro v hv
      simp only [STTable.values, List.mem_flatMap, List.mem_map] at hv
      rcases hv with ⟨p, _, a2, _, hval⟩
      rw [← hval]
      simp [create_solution_times, Val.finitePart]
    have hfind : find_switch_points
        (create_solution_times df (fun _ _ => false)).values isF = [] := by
      rw [find_switch_points_eq_spec]
      simp only [specSwitchPoints, hfm]
      cases isF <;> rfl
    refine ⟨hfind, ?_⟩
    rw [determine_alpha_grid, hfind]
    rfl
  · intro vals isF q h
    exact grid_isSome_of_mem_vals vals isF q h

theorem claim_C10_witness :
    Val.fin 1 ∈ [Val.fin 1]
    ∧ (determine_alpha_grid [Val.fin 1] true).isSome = true :=
  ⟨by decide, claim_C10_all_nonconverged.2 [Val.fin 1] true 1 (by decide)⟩

end Optimagic

